import Mathlib

/-!
# wish shell: redirection parsing, built-ins, path search and command groups

A shallow embedding of `src/wish.cpp`.  A `std::string` is a list of
characters, a `std::vector<string>` a list of strings.  The process-wide
`paths` vector and the system calls the shell issues are explicit state
(`Shell`); the answers of the operating system are an oracle (`OS`).
-/

namespace Wish

/-- A `std::string`, as the list of its characters. -/
abbrev Str := List Char

/-! ## String helpers of the C++ standard library -/

/-- Membership test behind `find_first_not_of(" \t")` and `find_last_not_of(" \t")`:
the character is a space or a tab. -/
def is_blank (c : Char) : Bool := c == ' ' || c == '\t'

/-- The `isspace` classification of the C locale, used by `operator>>` on a stream. -/
def isspace (c : Char) : Bool :=
  c == ' ' || c == '\t' || c == '\n' || c == '\x0b' || c == '\x0c' || c == '\r'

/-- Result of `str.find_first_not_of(" \t")`: index of the first character that is neither a
space nor a tab; `none` is `string::npos`. -/
def find_first_not_of : Str → Option Nat
  | [] => none
  | c :: cs => if is_blank c then (find_first_not_of cs).map (· + 1) else some 0

/-- Result of `str.find_last_not_of(" \t")`: index of the last character that is neither a
space nor a tab; `none` is `string::npos`. -/
def find_last_not_of : Str → Option Nat
  | [] => none
  | c :: cs =>
    match find_last_not_of cs with
    | some k => some (k + 1)
    | none => if is_blank c then none else some 0

/-- Result of `token.find('>')`: index of the first `>`; `none` is `string::npos`. -/
def find_redir : Str → Option Nat
  | [] => none
  | c :: cs => if c = '>' then some 0 else (find_redir cs).map (· + 1)

/-- The call `str.substr(pos, len)`. -/
def substr (s : Str) (pos len : Nat) : Str := (s.drop pos).take len

/-- The call `str.substr(pos)`: everything from `pos` on. -/
def substr_from (s : Str) (pos : Nat) : Str := s.drop pos

/-- The function `trim` of wish.cpp: strips leading and trailing spaces and tabs. -/
def trim (str : Str) : Str :=
  match find_first_not_of str with
  | none => []
  | some first =>
    match find_last_not_of str with
    | none => []   -- not reachable: a first non-blank character is also a last one
    | some last => substr str first (last - first + 1)

/-! ## Tokenizer -/

/-- The loop `while (tokenStream >> token) tokens.push_back(token)`, one character
at a time; `cur` is the token being extracted.  Extraction skips leading
whitespace, stops at whitespace or end of input, and fails when nothing was
extracted. -/
def parse_input_loop : Str → Str → List Str
  | [], cur => if cur.isEmpty then [] else [cur]
  | c :: cs, cur =>
    if isspace c then
      (if cur.isEmpty then parse_input_loop cs [] else cur :: parse_input_loop cs [])
    else parse_input_loop cs (cur ++ [c])

/-- The function `parse_input` of wish.cpp. -/
def parse_input (input : Str) : List Str := parse_input_loop input []

/-! ## Redirection parser -/

/-- The `return` statement through which `handle_redirection` leaves. -/
inductive RedirExit
  /-- line 63: no command before a `>` found inside a token -/
  | no_command_glued
  /-- line 73: more than one token after a token ending in `>` -/
  | too_many_glued
  /-- line 80: nothing after a token ending in `>` -/
  | no_file_glued
  /-- line 86: no command before a token equal to `>` (second branch) -/
  | no_command_alone
  /-- line 91: more than one token after `>` (second branch) -/
  | too_many_alone
  /-- line 98: nothing after `>` (second branch) -/
  | no_file_alone
  /-- line 106: the final `return redirection_found || output_file.empty()` -/
  | final
  deriving DecidableEq, Repr

/-- What `handle_redirection` leaves behind: its return value, the two
by-reference arguments, and how many times it called `print_error`. -/
structure RedirResult where
  ok : Bool
  command_tokens : List Str
  output_file : Str
  errors : Nat
  exit : RedirExit
  deriving DecidableEq, Repr

/-- Line 106, reached when the loop ends or through `break`. -/
def handle_redirection_return (command_tokens : List Str) (output_file : Str)
    (redirection_found : Bool) : RedirResult :=
  ⟨redirection_found || output_file.isEmpty, command_tokens, output_file, 0, .final⟩

/-- The `for` loop of `handle_redirection`.  The first argument is the part of
`tokens` from index `i` on: `token :: rest` means `tokens[i] = token`, so
`i + 1 < tokens.size()` says that `rest` is `next :: after`, with
`tokens[i + 1] = next`, and `i + 2 < tokens.size()` that `after` is not empty. -/
def handle_redirection_loop : List Str → List Str → Str → Bool → RedirResult
  | [], command_tokens, output_file, redirection_found =>
    handle_redirection_return command_tokens output_file redirection_found
  | token :: rest, command_tokens, output_file, redirection_found =>
    match find_redir token with
    | some redir_pos =>
      let command_part := substr token 0 redir_pos
      let file_part := substr_from token (redir_pos + 1)
      let command_tokens :=
        if !command_part.isEmpty then command_tokens ++ [trim command_part]
        else command_tokens
      if command_tokens.isEmpty then
        ⟨false, command_tokens, output_file, 1, .no_command_glued⟩
      else if !file_part.isEmpty then
        handle_redirection_loop rest command_tokens (trim file_part) true
      else
        match rest with
        | next :: after =>
          if !after.isEmpty then
            ⟨false, command_tokens, output_file, 1, .too_many_glued⟩
          else handle_redirection_return command_tokens (trim next) true
        | [] => ⟨false, command_tokens, output_file, 1, .no_file_glued⟩
    | none =>
      if token = ['>'] then
        if command_tokens.isEmpty then
          ⟨false, command_tokens, output_file, 1, .no_command_alone⟩
        else
          match rest with
          | next :: after =>
            if !after.isEmpty then
              ⟨false, command_tokens, output_file, 1, .too_many_alone⟩
            else handle_redirection_return command_tokens (trim next) true
          | [] => ⟨false, command_tokens, output_file, 1, .no_file_alone⟩
      else
        handle_redirection_loop rest (command_tokens ++ [token]) output_file redirection_found

/-- The function `handle_redirection` of wish.cpp; `command_tokens` and
`output_file` are the values the two reference arguments have on entry. -/
def handle_redirection (tokens : List Str) (command_tokens : List Str) (output_file : Str) :
    RedirResult :=
  handle_redirection_loop tokens command_tokens output_file false

/-! ## Process state and operating system -/

/-- The program a forked child goes on to run: the `pid == 0` branch of the
`fork()` that created it. -/
inductive Child
  /-- child of `execute_single_command`: the search-path loop over `execv` -/
  | exec (tokens : List Str) (output_file : Str) (out_fd : Nat)
  /-- child of `execute_parallel_commands`: one member of the command group -/
  | command (command : Str)
  deriving DecidableEq, Repr

/-- A system call (or stream operation) issued by the shell, with its answer. -/
inductive Event
  /-- call of `print_error()`: the shared message written to standard error -/
  | error
  /-- output `cout << "wish> "` -/
  | prompt
  /-- call `getline(input_stream, line)`; `ok = false` at end of input -/
  | getline (ok : Bool)
  /-- call `chdir(dir)`; `ok` iff it returned 0 -/
  | chdir (dir : Str) (ok : Bool)
  /-- call `open(file, O_CREAT | O_WRONLY | O_TRUNC, S_IRWXU)`; `none` is a negative result -/
  | open_file (file : Str) (fd : Option Nat)
  /-- call `fork()` seen from the parent; `none` is a negative result -/
  | fork (child : Child) (pid : Option Nat)
  /-- call `dup2(fd, target)` -/
  | dup2 (fd target : Nat)
  /-- call `execv(path, args)`; `ok = false` iff it returned -/
  | execv (path : Str) (args : List Str) (ok : Bool)
  /-- call `wait(nullptr)` -/
  | wait
  /-- call `waitpid(pid, nullptr, 0)` -/
  | waitpid (pid : Nat)
  /-- call `close(fd)` -/
  | close (fd : Nat)
  /-- call `exit(status)` -/
  | exit (status : Nat)
  deriving DecidableEq, Repr

/-- The answers of the operating system. -/
structure OS where
  /-- whether `chdir(dir)` succeeds -/
  chdir : Str → Bool
  /-- the descriptor `open` returns for a file, `none` on failure -/
  open_file : Str → Option Nat
  /-- the pid `fork()` returns to the parent after the calls made so far, `none` on failure -/
  fork : List Event → Option Nat
  /-- whether `execv(path, args)` succeeds, replacing the process image -/
  execv : Str → List Str → Bool

/-- State of one shell process: the global `paths` and the calls issued so far. -/
structure Shell where
  paths : List Str
  trace : List Event
  deriving DecidableEq, Repr

/-- The global initialiser `vector<string> paths = {"/bin"}`. -/
def Shell.init : Shell := ⟨["/bin".toList], []⟩

/-- Appends events to the trace of a process. -/
def Shell.emit (s : Shell) (es : List Event) : Shell := { s with trace := s.trace ++ es }

/-- The function `print_error` of wish.cpp. -/
def print_error (s : Shell) : Shell := s.emit [.error]

/-- How a piece of code ends: it returns a value, the process terminates through
`exit(status)`, or a successful `execv` replaces the process image. -/
inductive Outcome (α : Type) where
  | ret (value : α) (s : Shell)
  | exited (status : Nat) (s : Shell)
  | replaced (path : Str) (args : List Str) (s : Shell)
  deriving DecidableEq, Repr

/-- The process state at the end. -/
def Outcome.state {α : Type} : Outcome α → Shell
  | .ret _ s => s
  | .exited _ s => s
  | .replaced _ _ s => s

/-! ## Built-in commands -/

/-- The loop `for (i = 1; i < tokens.size(); ++i) paths.push_back(tokens[i])`
over the tokens from index 1 on. -/
def push_back_all : List Str → List Str → List Str
  | paths, [] => paths
  | paths, t :: ts => push_back_all (paths ++ [t]) ts

/-- The function `execute_builtin_command` of wish.cpp. -/
def execute_builtin_command (os : OS) (tokens : List Str) (s : Shell) : Outcome Bool :=
  match tokens with
  | [] => .ret false s
  | tok0 :: args =>
    if tok0 = "cd".toList then
      if tokens.length ≠ 2 then .ret true (print_error s)
      else
        let dir := args.headD []
        if !os.chdir dir then .ret true (print_error (s.emit [.chdir dir false]))
        else .ret true (s.emit [.chdir dir true])
    else if tok0 = "path".toList then
      .ret true { s with paths := push_back_all [] args }
    else if tok0 = "exit".toList then
      if tokens.length > 1 then .ret true (print_error s)
      else .exited 0 (s.emit [.exit 0])
    else .ret false s

/-! ## Command executor -/

/-- The loop `for (dir : paths) execv(dir + "/" + tokens[0], args)` in the child:
it ends at the first `execv` that succeeds, and falls through when none does. -/
def execv_loop (os : OS) (tok0 : Str) (tokens : List Str) : List Str → Shell → Outcome Unit
  | [], s => .ret () s
  | dir :: dirs, s =>
    let full_path := dir ++ "/".toList ++ tok0
    if os.execv full_path tokens then
      .replaced full_path tokens (s.emit [.execv full_path tokens true])
    else execv_loop os tok0 tokens dirs (s.emit [.execv full_path tokens false])

/-- The `pid == 0` branch of `execute_single_command`, run by the child on its
copy `s` of the shell state. -/
def execute_single_command_child (os : OS) (tokens : List Str) (output_file : Str)
    (out_fd : Nat) (s : Shell) : Outcome Unit :=
  let s := if !output_file.isEmpty then s.emit [.dup2 out_fd 1, .dup2 out_fd 2] else s
  match execv_loop os (tokens.headD []) tokens s.paths s with
  | .ret _ s =>
    let s := print_error s
    let s := if !output_file.isEmpty then s.emit [.close out_fd] else s
    .exited 1 (s.emit [.exit 1])
  | out => out

/-- The function `execute_single_command` of wish.cpp, as the parent runs it. -/
def execute_single_command (os : OS) (tokens : List Str) (output_file : Str) (s : Shell) :
    Shell :=
  if tokens.isEmpty then s
  else
    let opened : Option (Nat × Shell) :=
      if !output_file.isEmpty then
        match os.open_file output_file with
        | some fd => some (fd, s.emit [.open_file output_file (some fd)])
        | none => none
      else some (1, s)
    match opened with
    | none => print_error (s.emit [.open_file output_file none])
    | some (out_fd, s) =>
      let child := Child.exec tokens output_file out_fd
      let s :=
        match os.fork s.trace with
        | some pid => s.emit [.fork child (some pid), .wait]
        | none => print_error (s.emit [.fork child none])
      if !output_file.isEmpty then s.emit [.close out_fd] else s

/-- The function `execute_command_with_redirection` of wish.cpp. -/
def execute_command_with_redirection (os : OS) (command : Str) (s : Shell) : Outcome Unit :=
  let tokens := parse_input command
  let r := handle_redirection tokens [] []
  let s := s.emit (List.replicate r.errors .error)
  if !r.ok then .ret () s
  else
    match execute_builtin_command os r.command_tokens s with
    | .ret true s => .ret () s
    | .ret false s => .ret () (execute_single_command os r.command_tokens r.output_file s)
    | .exited status s => .exited status s
    | .replaced path args s => .replaced path args s

/-! ## Command-line orchestrator -/

/-- The first loop of `execute_parallel_commands`, as the parent runs it; `pids`
collects the children forked so far. -/
def fork_loop (os : OS) : List Str → List Nat → Shell → List Nat × Shell
  | [], pids, s => (pids, s)
  | command :: commands, pids, s =>
    if (trim command).isEmpty then fork_loop os commands pids s
    else
      match os.fork s.trace with
      | some pid =>
        fork_loop os commands (pids ++ [pid]) (s.emit [.fork (.command command) (some pid)])
      | none =>
        fork_loop os commands pids (print_error (s.emit [.fork (.command command) none]))

/-- The second loop of `execute_parallel_commands`: `waitpid` on every collected pid. -/
def wait_loop : List Nat → Shell → Shell
  | [], s => s
  | pid :: pids, s => wait_loop pids (s.emit [.waitpid pid])

/-- The function `execute_parallel_commands` of wish.cpp, as the parent runs it. -/
def execute_parallel_commands (os : OS) (commands : List Str) (s : Shell) : Shell :=
  let (pids, s) := fork_loop os commands [] s
  wait_loop pids s

/-- The `pid == 0` branch of `execute_parallel_commands`:
`execute_command_with_redirection(command); exit(0);`. -/
def execute_parallel_child (os : OS) (command : Str) (s : Shell) : Outcome Unit :=
  match execute_command_with_redirection os command s with
  | .ret _ s => .exited 0 (s.emit [.exit 0])
  | out => out

/-- What a forked child does with its copy of the shell state. -/
def Child.run (os : OS) : Child → Shell → Outcome Unit
  | .exec tokens output_file out_fd, s =>
    execute_single_command_child os tokens output_file out_fd s
  | .command cmd, s => execute_parallel_child os cmd s

/-- Successive `getline(ss, command, '&')` until extraction fails; `cur` is the
piece being extracted.  A piece ends at `&` or at the end of the line, and
extraction fails when the line is exhausted before any character is read. -/
def getline_loop : Str → Str → List Str
  | [], cur => if cur.isEmpty then [] else [cur]
  | c :: cs, cur => if c = '&' then cur :: getline_loop cs [] else getline_loop cs (cur ++ [c])

/-- The loop of `run_shell` that fills `commands`: the trimmed, non-blank pieces. -/
def collect_commands : List Str → List Str
  | [] => []
  | command :: rest =>
    if !(trim command).isEmpty then trim command :: collect_commands rest
    else collect_commands rest

/-- The vector `commands` that `run_shell` builds from a trimmed line (lines 270-278). -/
def command_group (line : Str) : List Str := collect_commands (getline_loop line [])

/-- Lines 264-287 of `run_shell`: the handling of one line that was read. -/
def run_line (os : OS) (line : Str) (s : Shell) : Outcome Unit :=
  let line := trim line
  if line = "&".toList || line.isEmpty then .ret () s
  else
    let commands := command_group line
    if !commands.isEmpty then
      if commands.length > 1 then .ret () (execute_parallel_commands os commands s)
      else execute_command_with_redirection os (commands.headD []) s
    else .ret () s

/-- The function `run_shell` of wish.cpp on an input stream holding `lines`. -/
def run_shell (os : OS) (interactive : Bool) : List Str → Shell → Outcome Unit
  | [], s =>
    let s := if interactive then s.emit [.prompt] else s
    .ret () (s.emit [.getline false])
  | line :: lines, s =>
    let s := if interactive then s.emit [.prompt] else s
    match run_line os line (s.emit [.getline true]) with
    | .ret _ s => run_shell os interactive lines s
    | out => out

/-! ## Vocabulary of the statements

Functions that describe inputs and traces in the theorems below; none of them is
part of the program. -/

/-- The command line spelled from tokens separated by one space each. -/
def unwords : List Str → Str
  | [] => []
  | [t] => t
  | t :: ts => t ++ ' ' :: unwords ts

/-- The argument list after lines 55-58: the part of the token before `>` is
pushed, trimmed, unless it is empty. -/
def push_command_part (command_tokens : List Str) (command_part : Str) : List Str :=
  if !command_part.isEmpty then command_tokens ++ [trim command_part] else command_tokens

/-- An operating system in which every call succeeds, with fixed answers. -/
def os_ok : OS := ⟨fun _ => true, fun _ => some 3, fun _ => some 100, fun _ _ => true⟩

/-- An operating system in which every call fails. -/
def os_fail : OS := ⟨fun _ => false, fun _ => none, fun _ => none, fun _ _ => false⟩

/-- The events of the child before the search: the two `dup2` calls when redirecting. -/
def child_prologue (output_file : Str) (out_fd : Nat) : List Event :=
  if output_file = [] then [] else [.dup2 out_fd 1, .dup2 out_fd 2]

/-- The events of the child after a failed search: the shared error, `close` when
redirecting, and `exit(1)`. -/
def child_epilogue (output_file : Str) (out_fd : Nat) : List Event :=
  .error :: ((if output_file = [] then [] else [.close out_fd]) ++ [.exit 1])

/-- The candidate `dir + "/" + args[0]` of a search-path entry. -/
def candidate (dir cmd : Str) : Str := dir ++ "/".toList ++ cmd

/-- An operating system in which `execv` succeeds on `/bin/ls` only. -/
def os_bin_ls : OS :=
  ⟨fun _ => true, fun _ => some 3, fun t => some (100 + t.length),
    fun path _ => path == "/bin/ls".toList⟩

/-- The children created by the `fork` calls of a trace, in order. -/
def fork_children : List Event → List Child
  | [] => []
  | .fork child _ :: es => child :: fork_children es
  | _ :: es => fork_children es

/-- The pids returned by the successful `fork` calls of a trace, in order. -/
def fork_pids : List Event → List Nat
  | [] => []
  | .fork _ (some pid) :: es => pid :: fork_pids es
  | _ :: es => fork_pids es

/-- The calls of the parent in the first loop of `execute_parallel_commands`, given
the answer of each `fork()`: one `fork` per command, in order, the child running that
command, and the error message right after a `fork` that failed. -/
def fork_events : List Str → List (Option Nat) → List Event
  | command :: commands, some pid :: answers =>
    .fork (.command command) (some pid) :: fork_events commands answers
  | command :: commands, none :: answers =>
    .fork (.command command) none :: .error :: fork_events commands answers
  | _, _ => []

/-- The answers the operating system gives to the successive `fork()` calls for the
commands of a group, the first call being made after the calls in `trace`. -/
def fork_answers (os : OS) : List Str → List Event → List (Option Nat)
  | [], _ => []
  | command :: commands, trace =>
    os.fork trace ::
      fork_answers os commands (trace ++ fork_events [command] [os.fork trace])

/-- The pids among the answers of `fork()`, in order: the children that exist. -/
def forked_pids : List (Option Nat) → List Nat
  | [] => []
  | some pid :: answers => pid :: forked_pids answers
  | none :: answers => forked_pids answers

/-- The calls expected of the parent for a command group, after the calls in `trace`:
the forks of `fork_events`, then one `waitpid` for each forked pid, in order. -/
def parallel_events (os : OS) (commands : List Str) (trace : List Event) : List Event :=
  fork_events commands (fork_answers os commands trace) ++
    (forked_pids (fork_answers os commands trace)).map .waitpid

/-- The calls by which `run_shell` reads a line: the prompt when interactive, then
`getline`, which succeeds iff a line is left. -/
def read_events (interactive more : Bool) : List Event :=
  (if interactive then [.prompt] else []) ++ [.getline more]

/-! ## Lemmas on the string helpers -/

theorem is_blank_of_isspace {c : Char} (h : isspace c = false) : is_blank c = false := by
  simp only [isspace, Bool.or_eq_false_iff] at h
  simp only [is_blank, Bool.or_eq_false_iff]
  exact ⟨h.1.1.1.1.1, h.1.1.1.1.2⟩

theorem find_first_not_of_eq_none {s : Str} (h : ∀ c ∈ s, is_blank c = true) :
    find_first_not_of s = none := by
  induction s with
  | nil => rfl
  | cons c cs ih =>
    have hc := h c (List.mem_cons_self _ _)
    have := ih (fun d hd => h d (List.mem_cons_of_mem _ hd))
    simp [find_first_not_of, hc, this]

theorem trim_eq_nil_of_blank {s : Str} (h : ∀ c ∈ s, is_blank c = true) : trim s = [] := by
  simp [trim, find_first_not_of_eq_none h]

theorem find_last_not_of_of_free {s : Str} (hne : s ≠ []) (h : ∀ c ∈ s, is_blank c = false) :
    find_last_not_of s = some (s.length - 1) := by
  induction s with
  | nil => exact absurd rfl hne
  | cons c cs ih =>
    have hc := h c (List.mem_cons_self _ _)
    cases cs with
    | nil => simp [find_last_not_of, hc]
    | cons d ds =>
      have := ih (by simp) (fun e he => h e (List.mem_cons_of_mem _ he))
      simp only [find_last_not_of] at this ⊢
      simp [this]

theorem trim_of_free {s : Str} (h : ∀ c ∈ s, is_blank c = false) : trim s = s := by
  cases s with
  | nil => rfl
  | cons c cs =>
    have hc := h c (List.mem_cons_self _ _)
    have hl := find_last_not_of_of_free (s := c :: cs) (by simp) h
    simp only [List.length_cons, Nat.add_sub_cancel] at hl
    simp [trim, find_first_not_of, hc, hl, substr]

theorem trim_of_ws_free {s : Str} (h : ∀ c ∈ s, isspace c = false) : trim s = s :=
  trim_of_free (fun c hc => is_blank_of_isspace (h c hc))

theorem find_redir_eq_none {s : Str} (h : '>' ∉ s) : find_redir s = none := by
  induction s with
  | nil => rfl
  | cons c cs ih =>
    have hc : c ≠ '>' := fun e => h (e ▸ List.mem_cons_self _ _)
    have := ih (fun hm => h (List.mem_cons_of_mem _ hm))
    simp [find_redir, hc, this]

theorem find_redir_append {s : Str} (h : '>' ∉ s) (t : Str) :
    find_redir (s ++ '>' :: t) = some s.length := by
  induction s with
  | nil => simp [find_redir]
  | cons c cs ih =>
    have hc : c ≠ '>' := fun e => h (e ▸ List.mem_cons_self _ _)
    have := ih (fun hm => h (List.mem_cons_of_mem _ hm))
    simp [find_redir, hc, this]

theorem find_redir_some {s : Str} {k : Nat} (h : find_redir s = some k) :
    '>' ∉ s.take k ∧ s = s.take k ++ '>' :: s.drop (k + 1) := by
  induction s generalizing k with
  | nil => simp [find_redir] at h
  | cons c cs ih =>
    by_cases hc : c = '>'
    · simp [find_redir, hc] at h
      subst h; simp [hc]
    · simp only [find_redir, hc, if_false, Option.map_eq_some'] at h
      obtain ⟨j, hj, rfl⟩ := h
      have := ih hj
      refine ⟨?_, ?_⟩
      · simp only [List.take_succ_cons, List.mem_cons, not_or]
        exact ⟨fun e => hc e.symm, this.1⟩
      · simp only [List.take_succ_cons, List.drop_succ_cons, List.cons_append]
        exact congrArg _ this.2

theorem mem_of_find_redir_none {s : Str} (h : find_redir s = none) : '>' ∉ s := by
  induction s with
  | nil => simp
  | cons c cs ih =>
    by_cases hc : c = '>'
    · simp [find_redir, hc] at h
    · simp only [find_redir, hc, if_false, Option.map_eq_none'] at h
      simp only [List.mem_cons, not_or]
      exact ⟨fun e => hc e.symm, ih h⟩

theorem mem_of_find_redir_some {s : Str} {k : Nat} (h : find_redir s = some k) : '>' ∈ s := by
  have := (find_redir_some h).2
  rw [this]; simp

/-! ## Lemmas on the tokenizer -/

theorem parse_input_loop_append {t : Str} (h : ∀ c ∈ t, isspace c = false) (rest cur : Str) :
    parse_input_loop (t ++ rest) cur = parse_input_loop rest (cur ++ t) := by
  induction t generalizing cur with
  | nil => simp
  | cons c cs ih =>
    have hc := h c (List.mem_cons_self _ _)
    have := ih (fun d hd => h d (List.mem_cons_of_mem _ hd)) (cur ++ [c])
    rw [List.cons_append]
    simp only [parse_input_loop, hc, Bool.false_eq_true, if_false]
    rw [this]; simp

theorem parse_input_loop_last {t : Str} (h : ∀ c ∈ t, isspace c = false) (cur : Str)
    (hne : cur ++ t ≠ []) : parse_input_loop t cur = [cur ++ t] := by
  have := parse_input_loop_append h [] cur
  simp only [List.append_nil] at this
  rw [this]
  cases hct : cur ++ t with
  | nil => exact absurd hct hne
  | cons c cs => simp [parse_input_loop]

theorem parse_input_loop_token {t : Str} (hne : t ≠ []) (h : ∀ c ∈ t, isspace c = false) :
    parse_input_loop t [] = [t] := by
  simpa using parse_input_loop_last h [] (by simpa using hne)

theorem parse_input_loop_space {cur : Str} (hne : cur ≠ []) (rest : Str) :
    parse_input_loop (' ' :: rest) cur = cur :: parse_input_loop rest [] := by
  cases cur with
  | nil => exact absurd rfl hne
  | cons c cs => simp [parse_input_loop, isspace]

theorem parse_input_loop_unwords (pre : List Str) (last rest : Str)
    (h : ∀ t ∈ pre ++ [last], t ≠ [] ∧ ∀ c ∈ t, isspace c = false) :
    parse_input_loop (unwords (pre ++ [last]) ++ rest) [] =
      pre ++ parse_input_loop rest last := by
  induction pre with
  | nil =>
    have hl := (h last (by simp)).2
    have := parse_input_loop_append hl rest []
    simpa [unwords] using this
  | cons t ts ih =>
    have ht := h t (by simp)
    have ih := ih (fun u hu => h u (List.mem_cons_of_mem _ hu))
    have hu : unwords (t :: ts ++ [last]) = t ++ ' ' :: unwords (ts ++ [last]) := by
      cases ts <;> simp [unwords]
    rw [hu, List.append_assoc, parse_input_loop_append ht.2, List.nil_append,
      List.cons_append, parse_input_loop_space ht.1, ih]
    simp

/-! ## Lemmas on the redirection parser -/

theorem handle_redirection_loop_plain (pre : List Str) (h : ∀ t ∈ pre, '>' ∉ t)
    (toks ct : List Str) (out : Str) (rf : Bool) :
    handle_redirection_loop (pre ++ toks) ct out rf =
      handle_redirection_loop toks (ct ++ pre) out rf := by
  induction pre generalizing ct with
  | nil => simp
  | cons t ts ih =>
    have ht := h t (List.mem_cons_self _ _)
    have hne : t ≠ ['>'] := fun e => ht (e ▸ List.mem_singleton_self _)
    have := ih (fun u hu => h u (List.mem_cons_of_mem _ hu)) (ct ++ [t])
    rw [List.cons_append]
    simp only [handle_redirection_loop, find_redir_eq_none ht, hne, if_false]
    rw [this]; simp

/-- One step of the loop on a token `c>f` with both sides present. -/
theorem handle_redirection_loop_glued {c f : Str} (hc : '>' ∉ c) (hcne : c ≠ [])
    (hfne : f ≠ []) (rest ct : List Str) (out : Str) (rf : Bool) :
    handle_redirection_loop ((c ++ '>' :: f) :: rest) ct out rf =
      handle_redirection_loop rest (ct ++ [trim c]) (trim f) true := by
  simp [handle_redirection_loop, find_redir_append hc, substr, substr_from, hcne, hfne]

/-- One step of the loop on a token `>f`, the argument list being non-empty. -/
theorem handle_redirection_loop_file {f : Str} (hfne : f ≠ []) (rest : List Str)
    {ct : List Str} (hct : ct ≠ []) (out : Str) (rf : Bool) :
    handle_redirection_loop (('>' :: f) :: rest) ct out rf =
      handle_redirection_loop rest ct (trim f) true := by
  simp [handle_redirection_loop, find_redir, substr, substr_from, hct, hfne]

/-- The loop on a token `c>` (or `>` when `c` is empty) followed by exactly one token. -/
theorem handle_redirection_loop_next {c : Str} (hc : '>' ∉ c) (next : Str)
    {ct : List Str} (hct : c = [] → ct ≠ []) (out : Str) (rf : Bool) :
    handle_redirection_loop [c ++ ['>'], next] ct out rf =
      ⟨true, if c = [] then ct else ct ++ [trim c], trim next, 0, .final⟩ := by
  by_cases hcne : c = []
  · subst hcne
    simp [handle_redirection_loop, find_redir, substr, substr_from, hct rfl,
      handle_redirection_return]
  · simp [handle_redirection_loop, find_redir_append hc, substr, substr_from, hcne,
      handle_redirection_return]

/-- The loop on a token `c>` (or `>`) followed by two tokens or more: the shared
error, once. -/
theorem handle_redirection_loop_too_many {c : Str} (hc : '>' ∉ c) (next extra : Str)
    (more : List Str) {ct : List Str} (hct : c = [] → ct ≠ []) (out : Str) (rf : Bool) :
    handle_redirection_loop ((c ++ ['>']) :: next :: extra :: more) ct out rf =
      ⟨false, if c = [] then ct else ct ++ [trim c], out, 1, .too_many_glued⟩ := by
  by_cases hcne : c = []
  · subst hcne
    simp [handle_redirection_loop, find_redir, substr, substr_from, hct rfl]
  · simp [handle_redirection_loop, find_redir_append hc, substr, substr_from, hcne]

/-! ## The four spellings of a redirected command -/

/-- Tokens of the four spellings `args>f`, `args > f`, `args >f`, `args> f`. -/
theorem parse_input_spellings (pre : List Str) (last f : Str)
    (h : ∀ t ∈ f :: (pre ++ [last]), t ≠ [] ∧ '>' ∉ t ∧ ∀ c ∈ t, isspace c = false) :
    parse_input (unwords (pre ++ [last]) ++ ['>'] ++ f) = pre ++ [last ++ '>' :: f] ∧
    parse_input (unwords (pre ++ [last]) ++ [' ', '>', ' '] ++ f) = pre ++ [last, ['>'], f] ∧
    parse_input (unwords (pre ++ [last]) ++ [' ', '>'] ++ f) = pre ++ [last, '>' :: f] ∧
    parse_input (unwords (pre ++ [last]) ++ ['>', ' '] ++ f) = pre ++ [last ++ ['>'], f] := by
  have hargs : ∀ t ∈ pre ++ [last], t ≠ [] ∧ ∀ c ∈ t, isspace c = false :=
    fun t ht => ⟨(h t (List.mem_cons_of_mem _ ht)).1, (h t (List.mem_cons_of_mem _ ht)).2.2⟩
  have hf := h f (List.mem_cons_self _ _)
  have hl := hargs last (by simp)
  have hgt : ∀ c ∈ ['>'], isspace c = false := by
    intro c hc; rw [List.mem_singleton.1 hc]; decide
  have hgf : ∀ c ∈ '>' :: f, isspace c = false := by
    intro c hc
    rcases List.mem_cons.1 hc with rfl | hc
    · decide
    · exact hf.2.2 c hc
  have key := parse_input_loop_unwords pre last
  unfold parse_input
  simp only [List.append_assoc]
  refine ⟨?_, ?_, ?_, ?_⟩
  · rw [key _ hargs, List.singleton_append, parse_input_loop_last hgf last (by simp)]
  · rw [key _ hargs]
    simp only [List.cons_append, List.nil_append]
    rw [parse_input_loop_space hl.1, ← List.singleton_append (l := ' ' :: f),
      parse_input_loop_append hgt, parse_input_loop_space (by simp),
      parse_input_loop_token hf.1 hf.2.2]
    simp
  · rw [key _ hargs]
    simp only [List.cons_append, List.nil_append]
    rw [parse_input_loop_space hl.1, parse_input_loop_token (by simp) hgf]
  · rw [key _ hargs]
    simp only [List.cons_append, List.nil_append]
    rw [← List.singleton_append (l := ' ' :: f), parse_input_loop_append hgt,
      parse_input_loop_space (by simp), parse_input_loop_token hf.1 hf.2.2]

/-- The parse of `args>f` and `args> f` (redirect glued to the last argument) and of
`args > f` and `args >f` (redirect in a token of its own, or glued to the file). -/
theorem handle_redirection_spellings (pre : List Str) (last f : Str)
    (h : ∀ t ∈ f :: (pre ++ [last]), t ≠ [] ∧ '>' ∉ t ∧ ∀ c ∈ t, isspace c = false) :
    ∀ tokens ∈ [pre ++ [last ++ '>' :: f], pre ++ [last, ['>'], f], pre ++ [last, '>' :: f],
        pre ++ [last ++ ['>'], f]],
      handle_redirection tokens [] [] = ⟨true, pre ++ [last], f, 0, .final⟩ := by
  have hpre : ∀ t ∈ pre, '>' ∉ t :=
    fun t ht => (h t (List.mem_cons_of_mem _ (List.mem_append_left _ ht))).2.1
  have hf := h f (List.mem_cons_self _ _)
  have hl := h last (by simp)
  have tf := trim_of_ws_free hf.2.2
  have tl := trim_of_ws_free hl.2.2
  have hpl : ∀ t ∈ pre ++ [last], '>' ∉ t :=
    fun t ht => (h t (List.mem_cons_of_mem _ ht)).2.1
  intro tokens ht
  simp only [List.mem_cons, List.mem_singleton, List.not_mem_nil, or_false] at ht
  unfold handle_redirection
  rcases ht with rfl | rfl | rfl | rfl
  · rw [handle_redirection_loop_plain pre hpre,
      handle_redirection_loop_glued hl.2.1 hl.1 hf.1, tl, tf]
    simp [handle_redirection_loop, handle_redirection_return]
  · rw [show pre ++ [last, ['>'], f] = (pre ++ [last]) ++ [[] ++ ['>'], f] by simp,
      handle_redirection_loop_plain _ hpl,
      handle_redirection_loop_next (by simp) f (by simp), tf]
    simp
  · rw [show pre ++ [last, '>' :: f] = (pre ++ [last]) ++ [('>' :: f)] by simp,
      handle_redirection_loop_plain _ hpl,
      handle_redirection_loop_file hf.1 _ (by simp), tf]
    simp [handle_redirection_loop, handle_redirection_return]
  · rw [handle_redirection_loop_plain pre hpre,
      handle_redirection_loop_next hl.2.1 f (fun e => absurd e hl.1), tl, tf]
    simp [hl.1]

/-- C1: for a non-empty argument list `args` and a file token `f`, all tokens
non-empty and free of `>` and of whitespace, each of the four spellings `args>f`,
`args > f`, `args >f` and `args> f`, tokenized by `parse_input` and handed to
`handle_redirection` with an empty argument list and an empty output file, succeeds
without an error message and yields the same pair: the argument list `args` and the
output file `f`. -/
theorem C1_redirect_spellings_agree (args : List Str) (f : Str) (hargs : args ≠ [])
    (h : ∀ t ∈ f :: args, t ≠ [] ∧ '>' ∉ t ∧ ∀ c ∈ t, isspace c = false) :
    ∀ line ∈ [unwords args ++ ['>'] ++ f, unwords args ++ [' ', '>', ' '] ++ f,
        unwords args ++ [' ', '>'] ++ f, unwords args ++ ['>', ' '] ++ f],
      handle_redirection (parse_input line) [] [] = ⟨true, args, f, 0, .final⟩ := by
  obtain ⟨pre, last, rfl⟩ : ∃ pre last, args = pre ++ [last] :=
    ⟨args.dropLast, args.getLast hargs, (List.dropLast_append_getLast hargs).symm⟩
  obtain ⟨p1, p2, p3, p4⟩ := parse_input_spellings pre last f h
  have key := handle_redirection_spellings pre last f h
  intro line hline
  simp only [List.mem_cons, List.mem_singleton, List.not_mem_nil, or_false] at hline
  rcases hline with rfl | rfl | rfl | rfl
  · rw [p1]; exact key _ (by simp)
  · rw [p2]; exact key _ (by simp)
  · rw [p3]; exact key _ (by simp)
  · rw [p4]; exact key _ (by simp)

/-- C1 at `ls -l` and `out`: the lines `ls -l>out`, `ls -l > out`, `ls -l >out`
and `ls -l> out`. -/
theorem C1_redirect_spellings_agree_witness :
    handle_redirection (parse_input "ls -l>out".toList) [] [] =
      ⟨true, ["ls".toList, "-l".toList], "out".toList, 0, .final⟩ ∧
    handle_redirection (parse_input "ls -l > out".toList) [] [] =
      ⟨true, ["ls".toList, "-l".toList], "out".toList, 0, .final⟩ ∧
    handle_redirection (parse_input "ls -l >out".toList) [] [] =
      ⟨true, ["ls".toList, "-l".toList], "out".toList, 0, .final⟩ ∧
    handle_redirection (parse_input "ls -l> out".toList) [] [] =
      ⟨true, ["ls".toList, "-l".toList], "out".toList, 0, .final⟩ :=
  have h := C1_redirect_spellings_agree ["ls".toList, "-l".toList] "out".toList
    (by decide) (by decide)
  ⟨h _ (List.mem_cons_self _ _),
   h _ (List.mem_cons_of_mem _ (List.mem_cons_self _ _)),
   h _ (List.mem_cons_of_mem _ (List.mem_cons_of_mem _ (List.mem_cons_self _ _))),
   h _ (List.mem_cons_of_mem _ (List.mem_cons_of_mem _ (List.mem_cons_of_mem _
     (List.mem_cons_self _ _))))⟩

/-! ## Errors of the redirection parser -/

/-- The loop on a token without `>`: the token joins the argument list (the branch
`token == ">"` is never taken, such a token having been caught by `find`). -/
theorem handle_redirection_loop_cons_none {token : Str} (h : find_redir token = none)
    (rest ct : List Str) (out : Str) (rf : Bool) :
    handle_redirection_loop (token :: rest) ct out rf =
      handle_redirection_loop rest (ct ++ [token]) out rf := by
  have hgt : token ≠ ['>'] := by
    intro e; subst e; simp [find_redir] at h
  simp only [handle_redirection_loop, h, hgt, if_false]

theorem push_command_part_ne_nil {ct : List Str} (cp : Str) (h : ct ≠ [] ∨ cp ≠ []) :
    push_command_part ct cp ≠ [] := by
  unfold push_command_part
  split
  · simp
  · rename_i hcp
    rcases h with h | h
    · exact h
    · exact absurd (by simpa using hcp) h

/-- The loop on a token holding `>` at index `k`. -/
theorem handle_redirection_loop_cons_some {token : Str} {k : Nat}
    (h : find_redir token = some k) (rest ct : List Str) (out : Str) (rf : Bool) :
    handle_redirection_loop (token :: rest) ct out rf =
      if push_command_part ct (token.take k) = [] then
        ⟨false, push_command_part ct (token.take k), out, 1, .no_command_glued⟩
      else if token.drop (k + 1) ≠ [] then
        handle_redirection_loop rest (push_command_part ct (token.take k))
          (trim (token.drop (k + 1))) true
      else
        match rest with
        | [] => ⟨false, push_command_part ct (token.take k), out, 1, .no_file_glued⟩
        | [next] => ⟨true, push_command_part ct (token.take k), trim next, 0, .final⟩
        | _ :: _ :: _ =>
          ⟨false, push_command_part ct (token.take k), out, 1, .too_many_glued⟩ := by
  simp only [handle_redirection_loop, h, substr, substr_from, List.drop_zero,
    push_command_part]
  generalize (if (!(token.take k).isEmpty) = true then ct ++ [trim (token.take k)]
      else ct) = ct1
  generalize token.drop (k + 1) = fp
  rcases ct1 with _ | ⟨a, as⟩
  · simp
  · rcases fp with _ | ⟨b, bs⟩
    · rcases rest with _ | ⟨next, _ | ⟨extra, more⟩⟩ <;> simp [handle_redirection_return]
    · simp

/-- Once the argument list is non-empty the loop never leaves through a
"no command before the redirect" branch. -/
theorem handle_redirection_loop_exit_of_args (toks : List Str) :
    ∀ (ct : List Str) (out : Str) (rf : Bool), ct ≠ [] →
      (handle_redirection_loop toks ct out rf).exit ≠ .no_command_glued ∧
      (handle_redirection_loop toks ct out rf).exit ≠ .no_command_alone := by
  induction toks with
  | nil => intro ct out rf _; simp [handle_redirection_loop, handle_redirection_return]
  | cons token rest ih =>
    intro ct out rf hct
    cases hfind : find_redir token with
    | none =>
      rw [handle_redirection_loop_cons_none hfind]
      exact ih _ _ _ (by simp)
    | some k =>
      have hct1 := push_command_part_ne_nil (token.take k) (Or.inl hct)
      rw [handle_redirection_loop_cons_some hfind, if_neg hct1]
      split
      · exact ih _ _ _ hct1
      · rcases rest with _ | ⟨next, _ | ⟨extra, more⟩⟩ <;> simp

/-- C3: started with an empty argument list, `handle_redirection` on a token
sequence whose first token begins with `>` reports the shared error exactly once
and returns failure through the "no command before the redirect" branch, whatever
tokens follow and whatever the output file was; and it leaves through such a branch
only when the first token begins with `>`. -/
theorem C3_leading_redirect_fails (tokens : List Str) (out : Str) :
    ((∃ s rest, tokens = ('>' :: s) :: rest) →
      handle_redirection tokens [] out = ⟨false, [], out, 1, .no_command_glued⟩) ∧
    (((handle_redirection tokens [] out).exit = .no_command_glued ∨
        (handle_redirection tokens [] out).exit = .no_command_alone) →
      ∃ s rest, tokens = ('>' :: s) :: rest) := by
  constructor
  · rintro ⟨s, rest, rfl⟩
    simp [handle_redirection, handle_redirection_loop, find_redir, substr]
  · intro hexit
    cases tokens with
    | nil => simp [handle_redirection, handle_redirection_loop, handle_redirection_return] at hexit
    | cons token rest =>
      cases token with
      | nil =>
        have := handle_redirection_loop_exit_of_args rest [[]] out false (by simp)
        simp [handle_redirection, handle_redirection_loop, find_redir] at hexit
        exact absurd hexit (by simpa using this)
      | cons c cs =>
        by_cases hc : c = '>'
        · exact ⟨cs, rest, by rw [hc]⟩
        · exfalso
          cases hfind : find_redir (c :: cs) with
          | none =>
            have := handle_redirection_loop_exit_of_args rest [c :: cs] out false (by simp)
            rw [handle_redirection, handle_redirection_loop_cons_none hfind] at hexit
            exact hexit.elim this.1 this.2
          | some k =>
            have hk : k ≠ 0 := by
              intro e; subst e
              simp [find_redir, hc] at hfind
            obtain ⟨j, rfl⟩ := Nat.exists_eq_succ_of_ne_zero hk
            have hct1 : push_command_part [] ((c :: cs).take (j + 1)) ≠ [] :=
              push_command_part_ne_nil _ (Or.inr (by simp))
            rw [handle_redirection, handle_redirection_loop_cons_some hfind, if_neg hct1]
              at hexit
            split at hexit
            · have := handle_redirection_loop_exit_of_args rest _
                (trim ((c :: cs).drop (j + 1 + 1))) true hct1
              exact hexit.elim (this.1 ·) (this.2 ·)
            · rcases rest with _ | ⟨next, _ | ⟨extra, more⟩⟩ <;> simp at hexit

/-- C3 at the token sequence of `>out ls`: one error, failure; and from the exit
taken, the shape of the first token. -/
theorem C3_leading_redirect_fails_witness :
    handle_redirection [">out".toList, "ls".toList] [] [] =
      ⟨false, [], [], 1, .no_command_glued⟩ ∧
    ∃ s rest, [">".toList, "out".toList] = ('>' :: s) :: rest :=
  ⟨(C3_leading_redirect_fails [">out".toList, "ls".toList] []).1 ⟨"out".toList, _, rfl⟩,
   (C3_leading_redirect_fails [">".toList, "out".toList] []).2 (Or.inl (by decide))⟩

/-! ## Invariant of a successful parse -/

/-- Invariant of the loop of `handle_redirection` on non-empty, whitespace-free
tokens, from a state whose argument tokens are non-empty and free of `>` and whose
output file is set only together with `redirection_found`. -/
theorem handle_redirection_loop_inv (toks : List Str) :
    ∀ (ct : List Str) (out : Str) (rf : Bool),
      (∀ t ∈ toks, t ≠ [] ∧ ∀ c ∈ t, isspace c = false) →
      (∀ a ∈ ct, a ≠ [] ∧ '>' ∉ a) →
      (out ≠ [] → rf = true) →
      ((handle_redirection_loop toks ct out rf).ok = true →
        (∀ a ∈ (handle_redirection_loop toks ct out rf).command_tokens, a ≠ [] ∧ '>' ∉ a) ∧
        (ct ≠ [] ∨ toks ≠ [] → (handle_redirection_loop toks ct out rf).command_tokens ≠ []) ∧
        ((handle_redirection_loop toks ct out rf).output_file ≠ [] ↔
          out ≠ [] ∨ ∃ t ∈ toks, '>' ∈ t) ∧
        (handle_redirection_loop toks ct out rf).errors = 0) ∧
      ((handle_redirection_loop toks ct out rf).ok = false →
        (handle_redirection_loop toks ct out rf).errors = 1 ∧
        (handle_redirection_loop toks ct out rf).exit ≠ .final) := by
  induction toks with
  | nil =>
    intro ct out rf _ hct hout
    simp only [handle_redirection_loop, handle_redirection_return]
    refine ⟨fun _ => ⟨hct, by simp, by simp, trivial⟩, fun hok => ?_⟩
    exfalso
    by_cases ho : out = []
    · simp [ho] at hok
    · simp [hout ho] at hok
  | cons token rest ih =>
    intro ct out rf htoks hct hout
    have htok := htoks token (List.mem_cons_self _ _)
    have hrest : ∀ t ∈ rest, t ≠ [] ∧ ∀ c ∈ t, isspace c = false :=
      fun t ht => htoks t (List.mem_cons_of_mem _ ht)
    cases hfind : find_redir token with
    | none =>
      have hgt := mem_of_find_redir_none hfind
      rw [handle_redirection_loop_cons_none hfind]
      have hct1 : ∀ a ∈ ct ++ [token], a ≠ [] ∧ '>' ∉ a := by
        intro a ha
        rcases List.mem_append.1 ha with ha | ha
        · exact hct a ha
        · rw [List.mem_singleton.1 ha]; exact ⟨htok.1, hgt⟩
      obtain ⟨ih1, ih2⟩ := ih (ct ++ [token]) out rf hrest hct1 hout
      refine ⟨fun hok => ?_, ih2⟩
      obtain ⟨a1, a2, a3, a4⟩ := ih1 hok
      refine ⟨a1, fun _ => a2 (Or.inl (by simp)), ?_, a4⟩
      rw [a3]
      simp only [List.mem_cons, exists_eq_or_imp, hgt, false_or]
    | some k =>
      obtain ⟨hk1, hk2⟩ := find_redir_some hfind
      have hmem : '>' ∈ token := mem_of_find_redir_some hfind
      have hcp : trim (token.take k) = token.take k :=
        trim_of_ws_free (fun c hc => htok.2 c (List.mem_of_mem_take hc))
      have hfp : trim (token.drop (k + 1)) = token.drop (k + 1) :=
        trim_of_ws_free (fun c hc => htok.2 c (List.mem_of_mem_drop hc))
      have hct1 : ∀ a ∈ push_command_part ct (token.take k), a ≠ [] ∧ '>' ∉ a := by
        intro a ha
        unfold push_command_part at ha
        split at ha
        · rename_i hne
          rcases List.mem_append.1 ha with ha | ha
          · exact hct a ha
          · rw [List.mem_singleton.1 ha, hcp]
            exact ⟨by simpa using hne, hk1⟩
        · exact hct a ha
      have hex : ∃ t ∈ token :: rest, '>' ∈ t := ⟨token, List.mem_cons_self _ _, hmem⟩
      rw [handle_redirection_loop_cons_some hfind]
      by_cases hne1 : push_command_part ct (token.take k) = []
      · rw [if_pos hne1]; simp
      · rw [if_neg hne1]
        by_cases hfne1 : token.drop (k + 1) ≠ []
        · rw [if_pos hfne1, hfp]
          obtain ⟨ih1, ih2⟩ := ih _ (token.drop (k + 1)) true hrest hct1 (fun _ => rfl)
          refine ⟨fun hok => ?_, ih2⟩
          obtain ⟨a1, a2, a3, a4⟩ := ih1 hok
          refine ⟨a1, fun _ => a2 (Or.inl hne1), ?_, a4⟩
          rw [a3]
          exact ⟨fun _ => Or.inr hex, fun _ => Or.inl hfne1⟩
        · rw [if_neg hfne1]
          rcases rest with _ | ⟨next, _ | ⟨extra, more⟩⟩
          · simp
          · have hn := hrest next (List.mem_cons_self _ _)
            have htn : trim next = next := trim_of_ws_free hn.2
            simp only [htn]
            refine ⟨fun _ => ⟨hct1, fun _ => hne1, ?_, trivial⟩, by simp⟩
            exact ⟨fun _ => Or.inr hex, fun _ => hn.1⟩
          · simp

/-- Failure of the loop always goes through a branch that reports the error once:
the final `redirection_found || output_file.empty()` is true whenever the output
file was only ever set together with `redirection_found`. -/
theorem handle_redirection_loop_fail (toks : List Str) :
    ∀ (ct : List Str) (out : Str) (rf : Bool), (out ≠ [] → rf = true) →
      (handle_redirection_loop toks ct out rf).ok = false →
      (handle_redirection_loop toks ct out rf).errors = 1 ∧
      (handle_redirection_loop toks ct out rf).exit ≠ .final := by
  induction toks with
  | nil =>
    intro ct out rf hout hok
    exfalso
    simp only [handle_redirection_loop, handle_redirection_return] at hok
    by_cases ho : out = []
    · simp [ho] at hok
    · simp [hout ho] at hok
  | cons token rest ih =>
    intro ct out rf hout
    cases hfind : find_redir token with
    | none =>
      rw [handle_redirection_loop_cons_none hfind]
      exact ih _ _ _ hout
    | some k =>
      rw [handle_redirection_loop_cons_some hfind]
      split
      · simp
      · split
        · exact ih _ _ _ (fun _ => rfl)
        · rcases rest with _ | ⟨next, _ | ⟨extra, more⟩⟩ <;> simp

/-- C10: on a successful parse of non-empty, whitespace-free tokens, started with an
empty argument list and an empty output file, (i) every resulting argument token is
non-empty and free of `>`, (ii) the argument list is non-empty when the input is,
(iii) the output file is non-empty exactly when some input token contains `>`, and no
error was reported; and on any token sequence a failure reports the shared error
exactly once and never comes from the final `return`. -/
theorem C10_successful_parse_invariant (tokens : List Str) :
    ((∀ t ∈ tokens, t ≠ [] ∧ ∀ c ∈ t, isspace c = false) →
      (handle_redirection tokens [] []).ok = true →
        (∀ a ∈ (handle_redirection tokens [] []).command_tokens, a ≠ [] ∧ '>' ∉ a) ∧
        (tokens ≠ [] → (handle_redirection tokens [] []).command_tokens ≠ []) ∧
        ((handle_redirection tokens [] []).output_file ≠ [] ↔ ∃ t ∈ tokens, '>' ∈ t) ∧
        (handle_redirection tokens [] []).errors = 0) ∧
    ((handle_redirection tokens [] []).ok = false →
      (handle_redirection tokens [] []).errors = 1 ∧
      (handle_redirection tokens [] []).exit ≠ .final) := by
  refine ⟨fun h hok => ?_, handle_redirection_loop_fail tokens [] [] false (by simp)⟩
  obtain ⟨a1, a2, a3, a4⟩ :=
    (handle_redirection_loop_inv tokens [] [] false h (by simp) (by simp)).1 hok
  refine ⟨a1, fun hne => a2 (Or.inr hne), ?_, a4⟩
  rw [handle_redirection, a3]
  simp

/-- C10 at the tokens of `ls -l >out` (a successful parse) and of `ls >` (a failure). -/
theorem C10_successful_parse_invariant_witness :
    ((∀ a ∈ (handle_redirection ["ls".toList, "-l".toList, ">out".toList] [] []).command_tokens,
        a ≠ [] ∧ '>' ∉ a) ∧
      (["ls".toList, "-l".toList, ">out".toList] ≠ [] →
        (handle_redirection ["ls".toList, "-l".toList, ">out".toList] [] []).command_tokens
          ≠ []) ∧
      ((handle_redirection ["ls".toList, "-l".toList, ">out".toList] [] []).output_file ≠ [] ↔
        ∃ t ∈ ["ls".toList, "-l".toList, ">out".toList], '>' ∈ t) ∧
      (handle_redirection ["ls".toList, "-l".toList, ">out".toList] [] []).errors = 0) ∧
    ((handle_redirection ["ls".toList, ">".toList] [] []).errors = 1 ∧
      (handle_redirection ["ls".toList, ">".toList] [] []).exit ≠ .final) :=
  ⟨(C10_successful_parse_invariant ["ls".toList, "-l".toList, ">out".toList]).1
      (by decide) (by decide),
   (C10_successful_parse_invariant ["ls".toList, ">".toList]).2 (by decide)⟩

/-! ## Tokens after the output file, and a second redirect -/

/-- A redirect that takes its target from the next token, followed by that target
and at least one token more: the shared error, once.  Covers `args > a x ...`
(`c` empty) and `args> a x ...` (`c` the last argument). -/
theorem handle_redirection_trailing (pre : List Str) (c next extra : Str) (more : List Str)
    (hpre : ∀ t ∈ pre, '>' ∉ t) (hc : '>' ∉ c) (hne : pre ≠ [] ∨ c ≠ []) :
    handle_redirection (pre ++ (c ++ ['>']) :: next :: extra :: more) [] [] =
      ⟨false, if c = [] then pre else pre ++ [trim c], [], 1, .too_many_glued⟩ := by
  rw [handle_redirection, handle_redirection_loop_plain pre hpre,
    handle_redirection_loop_too_many hc next extra more]
  · simp
  · intro hcn
    rcases hne with h | h
    · simpa using h
    · exact absurd hcn h

/-- A token `c>f` (or `>f` after some argument) whose part `f` after the first `>` is
non-empty, as the last token: the parse succeeds and all of `f`, further `>`
included, is the output file. -/
theorem handle_redirection_first_redirect_splits (pre : List Str) (c f : Str)
    (hpre : ∀ t ∈ pre, '>' ∉ t) (hc : '>' ∉ c) (hne : pre ≠ [] ∨ c ≠ []) (hf : f ≠ [])
    (hws : ∀ x ∈ c ++ f, isspace x = false) :
    handle_redirection (pre ++ [c ++ '>' :: f]) [] [] =
      ⟨true, if c = [] then pre else pre ++ [c], f, 0, .final⟩ := by
  have tc : trim c = c := trim_of_ws_free (fun x hx => hws x (List.mem_append_left _ hx))
  have tf : trim f = f := trim_of_ws_free (fun x hx => hws x (List.mem_append_right _ hx))
  rw [handle_redirection, handle_redirection_loop_plain pre hpre]
  by_cases hcn : c = []
  · subst hcn
    have hp : pre ≠ [] := hne.elim id (fun h => absurd rfl h)
    rw [List.nil_append, handle_redirection_loop_file hf [] (by simpa using hp), tf]
    simp [handle_redirection_loop, handle_redirection_return]
  · rw [handle_redirection_loop_glued hc hcn hf, tc, tf]
    simp [handle_redirection_loop, handle_redirection_return, hcn]

/-- C2, the code at `ls >out extra`: the redirect is glued to its target and one more
token follows, yet `handle_redirection` reports no error and succeeds with arguments
`ls extra` and output file `out`, and `execute_command_with_redirection` goes on to
run the external command (`ls` is not a built-in).  The same happens for
`ls>out extra`. -/
theorem C2_glued_target_accepts_trailing_token :
    handle_redirection (parse_input "ls >out extra".toList) [] [] =
      ⟨true, ["ls".toList, "extra".toList], "out".toList, 0, .final⟩ ∧
    handle_redirection (parse_input "ls>out extra".toList) [] [] =
      ⟨true, ["ls".toList, "extra".toList], "out".toList, 0, .final⟩ ∧
    ∀ (os : OS) (s : Shell),
      execute_command_with_redirection os "ls >out extra".toList s =
        .ret () (execute_single_command os ["ls".toList, "extra".toList] "out".toList s) := by
  refine ⟨by decide, by decide, fun os s => ?_⟩
  have h : handle_redirection (parse_input "ls >out extra".toList) [] [] =
      ⟨true, ["ls".toList, "extra".toList], "out".toList, 0, .final⟩ := by decide
  have hb : execute_builtin_command os ["ls".toList, "extra".toList] (s.emit []) =
      .ret false (s.emit []) := by
    simp [execute_builtin_command]
  have he : s.emit [] = s := by simp [Shell.emit]
  simp only [execute_command_with_redirection, h, List.replicate, Bool.not_true,
    Bool.false_eq_true, if_false, hb]
  rw [he]

/-- C9, the claim refuted at `ls>a>b`: the second `>` comes later in the same token,
after the target has started, and `handle_redirection` reports no error and succeeds
with output file `a>b`. -/
theorem C9_second_redirect_in_token_accepted :
    handle_redirection (parse_input "ls>a>b".toList) [] [] =
      ⟨true, ["ls".toList], "a>b".toList, 0, .final⟩ := by
  decide

/-- C9 as amended: (1) when a redirect takes its target from the following token
(`args > a`, `args> a`), any further token, a second `>` included, makes
`handle_redirection` report the shared error once and fail; (2) a token is split at its
first `>` only: what follows it in the token, further `>` included, becomes the output
file, and the parse of a sequence ending in such a token succeeds. -/
theorem C9_second_redirect_amended (pre : List Str) (c : Str)
    (hpre : ∀ t ∈ pre, '>' ∉ t) (hc : '>' ∉ c) (hne : pre ≠ [] ∨ c ≠ []) :
    (∀ (next extra : Str) (more : List Str),
      handle_redirection (pre ++ (c ++ ['>']) :: next :: extra :: more) [] [] =
        ⟨false, if c = [] then pre else pre ++ [trim c], [], 1, .too_many_glued⟩) ∧
    (∀ f : Str, f ≠ [] → (∀ x ∈ c ++ f, isspace x = false) →
      handle_redirection (pre ++ [c ++ '>' :: f]) [] [] =
        ⟨true, if c = [] then pre else pre ++ [c], f, 0, .final⟩) :=
  ⟨fun next extra more => handle_redirection_trailing pre c next extra more hpre hc hne,
   fun f hf hws => handle_redirection_first_redirect_splits pre c f hpre hc hne hf hws⟩

/-- C9 as amended, at `ls> a >b` (an error) and at `ls>a>b` (output file `a>b`). -/
theorem C9_second_redirect_amended_witness :
    handle_redirection ["ls>".toList, "a".toList, ">b".toList] [] [] =
      ⟨false, ["ls".toList], [], 1, .too_many_glued⟩ ∧
    handle_redirection ["ls>a>b".toList] [] [] =
      ⟨true, ["ls".toList], "a>b".toList, 0, .final⟩ :=
  ⟨(C9_second_redirect_amended [] "ls".toList (by decide) (by decide) (by decide)).1
      "a".toList ">b".toList [],
   (C9_second_redirect_amended [] "ls".toList (by decide) (by decide) (by decide)).2
      "a>b".toList (by decide) (by decide)⟩

/-! ## Built-in commands -/

theorem emit_emit (s : Shell) (a b : List Event) : (s.emit a).emit b = s.emit (a ++ b) := by
  simp [Shell.emit]

theorem emit_nil (s : Shell) : s.emit [] = s := by
  simp [Shell.emit]

theorem emit_paths (s : Shell) (a : List Event) : (s.emit a).paths = s.paths := rfl

theorem push_back_all_eq (paths tokens : List Str) :
    push_back_all paths tokens = paths ++ tokens := by
  induction tokens generalizing paths with
  | nil => simp [push_back_all]
  | cons t ts ih => simp [push_back_all, ih]

theorem cd_ne_path : "cd".toList ≠ "path".toList := by decide

theorem cd_ne_exit : "cd".toList ≠ "exit".toList := by decide

theorem path_ne_exit : "path".toList ≠ "exit".toList := by decide

/-- The built-in `path`: no error, handled, and the search path is the arguments. -/
theorem execute_builtin_command_path (os : OS) (dirs : List Str) (s : Shell) :
    execute_builtin_command os ("path".toList :: dirs) s = .ret true ⟨dirs, s.trace⟩ := by
  simp [execute_builtin_command, cd_ne_path.symm, push_back_all_eq]

/-- Every token list that does not start with `path` leaves the search path as it is. -/
theorem execute_builtin_command_paths_unchanged (os : OS) (tokens : List Str) (s : Shell)
    (h : tokens.head? ≠ some "path".toList) :
    (execute_builtin_command os tokens s).state.paths = s.paths := by
  cases tokens with
  | nil => rfl
  | cons tok0 args =>
    have hp : tok0 ≠ "path".toList := by simpa using h
    simp only [execute_builtin_command, hp, if_false]
    split
    · split
      · rfl
      · split <;> rfl
    · split
      · split <;> rfl
      · rfl

/-- C4: with the search path as explicit state, `execute_builtin_command` on a token
list starting with `path` reports no error, returns "handled" and leaves the search
path equal to the remaining tokens, in order and whatever the path was before; on a
token list that does not start with `path` (the empty list, `cd`, `exit`, their usage
errors, any other command) it leaves the search path unchanged. -/
theorem C4_path_builtin_replaces_search_path (os : OS) (tokens : List Str) (s : Shell) :
    (∀ dirs, tokens = "path".toList :: dirs →
      execute_builtin_command os tokens s = .ret true ⟨dirs, s.trace⟩) ∧
    (tokens.head? ≠ some "path".toList →
      (execute_builtin_command os tokens s).state.paths = s.paths) :=
  ⟨fun dirs h => h ▸ execute_builtin_command_path os dirs s,
   execute_builtin_command_paths_unchanged os tokens s⟩

/-- C4 at `path /usr/bin /bin /bin`, at `path`, and at `cd a b` (a usage error). -/
theorem C4_path_builtin_replaces_search_path_witness :
    execute_builtin_command os_ok
        ["path".toList, "/usr/bin".toList, "/bin".toList, "/bin".toList] Shell.init =
      .ret true ⟨["/usr/bin".toList, "/bin".toList, "/bin".toList], []⟩ ∧
    execute_builtin_command os_ok ["path".toList] Shell.init = .ret true ⟨[], []⟩ ∧
    (execute_builtin_command os_ok ["cd".toList, "a".toList, "b".toList]
        Shell.init).state.paths = ["/bin".toList] :=
  ⟨(C4_path_builtin_replaces_search_path os_ok _ Shell.init).1 _ rfl,
   (C4_path_builtin_replaces_search_path os_ok _ Shell.init).1 _ rfl,
   (C4_path_builtin_replaces_search_path os_ok _ Shell.init).2 (by decide)⟩

/-- C6: `execute_builtin_command` terminates the process iff its token list is exactly
`exit`, and then with status 0; for `exit` with one argument or more, and for `cd`
with any number of arguments other than one, it reports the shared error exactly
once, calls `chdir` not at all, does not terminate and returns "handled"; for `cd`
with exactly one argument it calls `chdir` once, on that argument, and reports the
shared error exactly once iff the call fails.  In each case the search path is
untouched. -/
theorem C6_builtin_argument_validation (os : OS) (tokens : List Str) (s : Shell) :
    ((∃ status s1, execute_builtin_command os tokens s = .exited status s1) ↔
      tokens = ["exit".toList]) ∧
    (tokens = ["exit".toList] →
      execute_builtin_command os tokens s = .exited 0 (s.emit [.exit 0])) ∧
    (∀ a rest, tokens = "exit".toList :: a :: rest →
      execute_builtin_command os tokens s = .ret true (s.emit [.error])) ∧
    (∀ rest, rest.length ≠ 1 → tokens = "cd".toList :: rest →
      execute_builtin_command os tokens s = .ret true (s.emit [.error])) ∧
    (∀ dir, tokens = ["cd".toList, dir] →
      execute_builtin_command os tokens s =
        .ret true (s.emit (.chdir dir (os.chdir dir) :: if os.chdir dir then [] else [.error]))) := by
  refine ⟨⟨?_, ?_⟩, ?_, ?_, ?_, ?_⟩
  · rintro ⟨status, s1, h⟩
    cases tokens with
    | nil => simp [execute_builtin_command] at h
    | cons tok0 args =>
      simp only [execute_builtin_command] at h
      split at h
      · split at h
        · simp at h
        · split at h <;> simp at h
      · split at h
        · simp at h
        · split at h
          · rename_i hexit
            split at h
            · simp at h
            · rename_i hlen
              have : args = [] := by
                simpa using hlen
              rw [hexit, this]
          · simp at h
  · rintro rfl
    exact ⟨0, s.emit [.exit 0], by
      simp [execute_builtin_command, cd_ne_exit.symm, path_ne_exit.symm]⟩
  · rintro rfl
    simp [execute_builtin_command, cd_ne_exit.symm, path_ne_exit.symm]
  · rintro a rest rfl
    simp [execute_builtin_command, cd_ne_exit.symm, path_ne_exit.symm, print_error]
  · rintro rest hlen rfl
    simp [execute_builtin_command, hlen, print_error]
  · rintro dir rfl
    cases hch : os.chdir dir <;>
      simp [execute_builtin_command, hch, print_error, emit_emit]

/-- C6 at `exit`, `exit now`, `cd`, `cd a b`, and `cd /tmp` with `chdir` succeeding
and failing. -/
theorem C6_builtin_argument_validation_witness :
    execute_builtin_command os_ok ["exit".toList] Shell.init =
      .exited 0 ⟨["/bin".toList], [.exit 0]⟩ ∧
    execute_builtin_command os_ok ["exit".toList, "now".toList] Shell.init =
      .ret true ⟨["/bin".toList], [.error]⟩ ∧
    execute_builtin_command os_ok ["cd".toList] Shell.init =
      .ret true ⟨["/bin".toList], [.error]⟩ ∧
    execute_builtin_command os_ok ["cd".toList, "a".toList, "b".toList] Shell.init =
      .ret true ⟨["/bin".toList], [.error]⟩ ∧
    execute_builtin_command os_ok ["cd".toList, "/tmp".toList] Shell.init =
      .ret true ⟨["/bin".toList], [.chdir "/tmp".toList true]⟩ ∧
    execute_builtin_command os_fail ["cd".toList, "/tmp".toList] Shell.init =
      .ret true ⟨["/bin".toList], [.chdir "/tmp".toList false, .error]⟩ :=
  ⟨(C6_builtin_argument_validation os_ok _ Shell.init).2.1 rfl,
   (C6_builtin_argument_validation os_ok _ Shell.init).2.2.1 _ _ rfl,
   (C6_builtin_argument_validation os_ok _ Shell.init).2.2.2.1 [] (by decide) rfl,
   (C6_builtin_argument_validation os_ok _ Shell.init).2.2.2.1 _ (by decide) rfl,
   (C6_builtin_argument_validation os_ok _ Shell.init).2.2.2.2 _ rfl,
   (C6_builtin_argument_validation os_fail _ Shell.init).2.2.2.2 _ rfl⟩

/-! ## Path search in the child -/

theorem execv_loop_cons (os : OS) (cmd : Str) (tokens : List Str) (d : Str) (ds : List Str)
    (s : Shell) :
    execv_loop os cmd tokens (d :: ds) s =
      if os.execv (candidate d cmd) tokens then
        .replaced (candidate d cmd) tokens (s.emit [.execv (candidate d cmd) tokens true])
      else execv_loop os cmd tokens ds (s.emit [.execv (candidate d cmd) tokens false]) := rfl

theorem execv_loop_all_fail (os : OS) (cmd : Str) (tokens dirs : List Str) (s : Shell)
    (h : ∀ dir ∈ dirs, os.execv (candidate dir cmd) tokens = false) :
    execv_loop os cmd tokens dirs s =
      .ret () (s.emit (dirs.map fun dir => .execv (candidate dir cmd) tokens false)) := by
  induction dirs generalizing s with
  | nil => simp [execv_loop, emit_nil]
  | cons d ds ih =>
    have hd := h d (List.mem_cons_self _ _)
    have := ih (s.emit [.execv (candidate d cmd) tokens false])
      (fun e he => h e (List.mem_cons_of_mem _ he))
    rw [execv_loop_cons, hd, if_neg (by simp), this, emit_emit]
    simp

theorem execv_loop_first_success (os : OS) (cmd : Str) (tokens before : List Str)
    (dir : Str) (after : List Str) (s : Shell)
    (hb : ∀ d ∈ before, os.execv (candidate d cmd) tokens = false)
    (hd : os.execv (candidate dir cmd) tokens = true) :
    execv_loop os cmd tokens (before ++ dir :: after) s =
      .replaced (candidate dir cmd) tokens
        (s.emit ((before.map fun d => .execv (candidate d cmd) tokens false) ++
          [.execv (candidate dir cmd) tokens true])) := by
  induction before generalizing s with
  | nil =>
    rw [List.nil_append, execv_loop_cons, hd, if_pos rfl]
    simp
  | cons d ds ih =>
    have h0 := hb d (List.mem_cons_self _ _)
    have := ih (s.emit [.execv (candidate d cmd) tokens false])
      (fun e he => hb e (List.mem_cons_of_mem _ he))
    rw [List.cons_append, execv_loop_cons, h0, if_neg (by simp), this, emit_emit]
    simp

/-- C5: with `execv` an oracle that succeeds or fails, the child of
`execute_single_command`, for every search path and every argument list
`cmd :: args`, calls `execv` on the candidates `dir + "/" + cmd` of the search path
in order, with the full argument list: (1) if every candidate fails, all are tried,
the shared error is reported exactly once and the child exits with status 1; (2) if
some candidate succeeds, the candidates before the first such one are tried and
fail, and that one replaces the process; (3) after `path` with zero arguments the
search path is empty, and on an empty search path no candidate is tried and the
child fails with the shared error and status 1; (4) a later `path dirs` makes the
search path `dirs` again. -/
theorem C5_search_path_resolution (os : OS) (s : Shell) (cmd : Str) (args : List Str)
    (output_file : Str) (out_fd : Nat) :
    ((∀ dir ∈ s.paths, os.execv (candidate dir cmd) (cmd :: args) = false) →
      execute_single_command_child os (cmd :: args) output_file out_fd s =
        .exited 1 (s.emit (child_prologue output_file out_fd ++
          (s.paths.map fun dir => .execv (candidate dir cmd) (cmd :: args) false) ++
          child_epilogue output_file out_fd))) ∧
    (∀ before dir after, s.paths = before ++ dir :: after →
      (∀ d ∈ before, os.execv (candidate d cmd) (cmd :: args) = false) →
      os.execv (candidate dir cmd) (cmd :: args) = true →
      execute_single_command_child os (cmd :: args) output_file out_fd s =
        .replaced (candidate dir cmd) (cmd :: args)
          (s.emit (child_prologue output_file out_fd ++
            (before.map fun d => .execv (candidate d cmd) (cmd :: args) false) ++
            [.execv (candidate dir cmd) (cmd :: args) true]))) ∧
    ((execute_builtin_command os ["path".toList] s).state.paths = [] ∧
      (s.paths = [] →
        execute_single_command_child os (cmd :: args) output_file out_fd s =
          .exited 1 (s.emit (child_prologue output_file out_fd ++
            child_epilogue output_file out_fd)))) ∧
    (∀ dirs, (execute_builtin_command os ("path".toList :: dirs) s).state.paths = dirs) := by
  have hfail : (∀ dir ∈ s.paths, os.execv (candidate dir cmd) (cmd :: args) = false) →
      execute_single_command_child os (cmd :: args) output_file out_fd s =
        .exited 1 (s.emit (child_prologue output_file out_fd ++
          (s.paths.map fun dir => .execv (candidate dir cmd) (cmd :: args) false) ++
          child_epilogue output_file out_fd)) := by
    intro h
    by_cases ho : output_file = []
    · simp [execute_single_command_child, ho, execv_loop_all_fail os cmd (cmd :: args) _ _ h,
        child_prologue, child_epilogue, print_error, emit_emit]
    · have h1 := execv_loop_all_fail os cmd (cmd :: args) s.paths
        (s.emit [.dup2 out_fd 1, .dup2 out_fd 2]) h
      simp [execute_single_command_child, ho, emit_paths, h1, child_prologue,
        child_epilogue, print_error, emit_emit]
  refine ⟨hfail, ?_, ⟨?_, ?_⟩, ?_⟩
  · intro before dir after hp hb hd
    by_cases ho : output_file = []
    · simp [execute_single_command_child, ho, hp,
        execv_loop_first_success os cmd (cmd :: args) before dir after _ hb hd,
        child_prologue, emit_emit]
    · have h1 := execv_loop_first_success os cmd (cmd :: args) before dir after
        (s.emit [.dup2 out_fd 1, .dup2 out_fd 2]) hb hd
      simp [execute_single_command_child, ho, emit_paths, hp, h1, child_prologue, emit_emit]
  · rw [execute_builtin_command_path]; rfl
  · intro hp
    have := hfail (by simp [hp])
    simpa [hp] using this
  · intro dirs
    rw [execute_builtin_command_path]; rfl

/-- C5 at the search path `/usr/bin`, `/bin`, `/opt`: `nosuch` fails after three
attempts, `ls -l` is launched from `/bin` at the second attempt; and on the empty
search path `ls` fails with no attempt, here with redirection to descriptor 3. -/
theorem C5_search_path_resolution_witness :
    execute_single_command_child os_bin_ls ["nosuch".toList] [] 1
        ⟨["/usr/bin".toList, "/bin".toList, "/opt".toList], []⟩ =
      .exited 1 ⟨["/usr/bin".toList, "/bin".toList, "/opt".toList],
        [.execv "/usr/bin/nosuch".toList ["nosuch".toList] false,
         .execv "/bin/nosuch".toList ["nosuch".toList] false,
         .execv "/opt/nosuch".toList ["nosuch".toList] false, .error, .exit 1]⟩ ∧
    execute_single_command_child os_bin_ls ["ls".toList, "-l".toList] [] 1
        ⟨["/usr/bin".toList, "/bin".toList, "/opt".toList], []⟩ =
      .replaced "/bin/ls".toList ["ls".toList, "-l".toList]
        ⟨["/usr/bin".toList, "/bin".toList, "/opt".toList],
          [.execv "/usr/bin/ls".toList ["ls".toList, "-l".toList] false,
           .execv "/bin/ls".toList ["ls".toList, "-l".toList] true]⟩ ∧
    execute_single_command_child os_bin_ls ["ls".toList] "out".toList 3 ⟨[], []⟩ =
      .exited 1 ⟨[], [.dup2 3 1, .dup2 3 2, .error, .close 3, .exit 1]⟩ :=
  ⟨(C5_search_path_resolution os_bin_ls
      ⟨["/usr/bin".toList, "/bin".toList, "/opt".toList], []⟩ "nosuch".toList [] [] 1).1
      (by decide),
   (C5_search_path_resolution os_bin_ls
      ⟨["/usr/bin".toList, "/bin".toList, "/opt".toList], []⟩ "ls".toList ["-l".toList] [] 1).2.1
      ["/usr/bin".toList] "/bin".toList ["/opt".toList] rfl (by decide) (by decide),
   (C5_search_path_resolution os_bin_ls ⟨[], []⟩ "ls".toList [] "out".toList 3).2.2.1.2 rfl⟩

/-! ## Command groups -/

theorem mem_of_mem_trim {s : Str} {c : Char} (h : c ∈ trim s) : c ∈ s := by
  unfold trim at h
  split at h
  · simp at h
  · split at h
    · simp at h
    · exact List.mem_of_mem_drop (List.mem_of_mem_take h)

theorem find_first_not_of_some {s : Str} {i : Nat} (h : find_first_not_of s = some i) :
    ∃ c rest, s.drop i = c :: rest ∧ is_blank c = false := by
  induction s generalizing i with
  | nil => simp [find_first_not_of] at h
  | cons x xs ih =>
    by_cases hx : is_blank x = true
    · simp only [find_first_not_of, hx, if_true, Option.map_eq_some'] at h
      obtain ⟨j, hj, rfl⟩ := h
      simpa using ih hj
    · simp only [find_first_not_of, hx, Bool.false_eq_true, if_false, Option.some.injEq] at h
      subst h
      exact ⟨x, xs, rfl, by simpa using hx⟩

theorem trim_head {s : Str} (h : trim s ≠ []) :
    ∃ c rest, trim s = c :: rest ∧ is_blank c = false := by
  unfold trim at h ⊢
  cases hf : find_first_not_of s with
  | none => simp [hf] at h
  | some first =>
    cases hl : find_last_not_of s with
    | none => simp [hf, hl] at h
    | some last =>
      obtain ⟨c, rest, hd, hc⟩ := find_first_not_of_some hf
      exact ⟨c, rest.take (last - first), by simp [substr, hd], hc⟩

theorem trim_ne_nil_of_head {c : Char} (rest : Str) (hc : is_blank c = false) :
    trim (c :: rest) ≠ [] := by
  cases hl : find_last_not_of rest with
  | none => simp [trim, find_first_not_of, find_last_not_of, hc, hl, substr]
  | some k => simp [trim, find_first_not_of, find_last_not_of, hc, hl, substr]

theorem trim_trim_ne_nil {s : Str} (h : trim s ≠ []) : trim (trim s) ≠ [] := by
  obtain ⟨c, rest, he, hc⟩ := trim_head h
  rw [he]
  exact trim_ne_nil_of_head rest hc

theorem getline_loop_pieces (s : Str) :
    ∀ cur, ∀ p ∈ getline_loop s cur, ∀ c ∈ p, c ∈ cur ∨ (c ∈ s ∧ c ≠ '&') := by
  induction s with
  | nil =>
    intro cur p hp c hc
    simp only [getline_loop] at hp
    split at hp
    · simp at hp
    · rw [List.mem_singleton.1 hp] at hc
      exact Or.inl hc
  | cons x xs ih =>
    intro cur p hp c hc
    simp only [getline_loop] at hp
    split at hp
    · rcases List.mem_cons.1 hp with rfl | hp
      · exact Or.inl hc
      · rcases ih [] p hp c hc with h | h
        · simp at h
        · exact Or.inr ⟨List.mem_cons_of_mem _ h.1, h.2⟩
    · rename_i hx
      rcases ih (cur ++ [x]) p hp c hc with h | h
      · rcases List.mem_append.1 h with h | h
        · exact Or.inl h
        · rw [List.mem_singleton.1 h]
          exact Or.inr ⟨List.mem_cons_self _ _, hx⟩
      · exact Or.inr ⟨List.mem_cons_of_mem _ h.1, h.2⟩

theorem collect_commands_eq_nil {ps : List Str} (h : ∀ p ∈ ps, trim p = []) :
    collect_commands ps = [] := by
  induction ps with
  | nil => rfl
  | cons p ps ih =>
    have hp := h p (List.mem_cons_self _ _)
    simp [collect_commands, hp, ih (fun q hq => h q (List.mem_cons_of_mem _ hq))]

theorem collect_commands_mem (ps : List Str) : ∀ c ∈ collect_commands ps, trim c ≠ [] := by
  induction ps with
  | nil => simp [collect_commands]
  | cons p ps ih =>
    intro c hc
    simp only [collect_commands] at hc
    split at hc
    · rename_i hp
      rcases List.mem_cons.1 hc with rfl | hc
      · exact trim_trim_ne_nil (by simpa using hp)
      · exact ih c hc
    · exact ih c hc

/-- A line of spaces, tabs and `&` only has an empty command group. -/
theorem command_group_blank {line : Str} (h : ∀ c ∈ line, c = ' ' ∨ c = '\t' ∨ c = '&') :
    command_group line = [] := by
  apply collect_commands_eq_nil
  intro p hp
  apply trim_eq_nil_of_blank
  intro c hc
  rcases getline_loop_pieces line [] p hp c hc with hn | ⟨hm, hne⟩
  · simp at hn
  · rcases h c hm with rfl | rfl | rfl
    · rfl
    · rfl
    · exact absurd rfl hne

/-- C7: for a line made of spaces, tabs and `&` only, in any number and order, the
command group that `run_shell` builds from the trimmed line is empty, the handling of
the line changes nothing (no call is made: no `fork`, no error message), and the
loop goes on to the next line having only prompted (when interactive) and read. -/
theorem C7_blank_or_separator_line_is_noop (os : OS) (line : Str)
    (h : ∀ c ∈ line, c = ' ' ∨ c = '\t' ∨ c = '&') :
    command_group (trim line) = [] ∧
    (∀ s, run_line os line s = .ret () s) ∧
    (∀ interactive lines s,
      run_shell os interactive (line :: lines) s =
        run_shell os interactive lines
          (s.emit ((if interactive then [.prompt] else []) ++ [.getline true]))) := by
  have hg : command_group (trim line) = [] :=
    command_group_blank (fun c hc => h c (mem_of_mem_trim hc))
  have hr : ∀ s, run_line os line s = .ret () s := by
    intro s
    simp only [run_line, hg]
    split <;> rfl
  refine ⟨hg, hr, ?_⟩
  intro interactive lines s
  cases interactive <;> simp [run_shell, hr, emit_emit]

/-- C7 at the line ` & \t&& `. -/
theorem C7_blank_or_separator_line_is_noop_witness :
    command_group (trim " & \t&& ".toList) = [] ∧
    run_line os_ok " & \t&& ".toList Shell.init = .ret () Shell.init :=
  ⟨(C7_blank_or_separator_line_is_noop os_ok " & \t&& ".toList (by decide)).1,
   (C7_blank_or_separator_line_is_noop os_ok " & \t&& ".toList (by decide)).2.1 _⟩

theorem wait_loop_eq (pids : List Nat) (s : Shell) :
    wait_loop pids s = s.emit (pids.map .waitpid) := by
  induction pids generalizing s with
  | nil => simp [wait_loop, emit_nil]
  | cons pid pids ih => simp [wait_loop, ih, emit_emit]

/-- The first loop of `execute_parallel_commands` on non-blank commands: the pids
collected and the calls made are those of `fork_events` at the answers of `fork()`. -/
theorem fork_loop_eq (os : OS) (commands : List Str) :
    ∀ (pids : List Nat) (s : Shell), (∀ c ∈ commands, trim c ≠ []) →
      fork_loop os commands pids s =
        (pids ++ forked_pids (fork_answers os commands s.trace),
          s.emit (fork_events commands (fork_answers os commands s.trace))) := by
  induction commands with
  | nil => intro pids s _; simp [fork_loop, fork_answers, forked_pids, fork_events, emit_nil]
  | cons c cs ih =>
    intro pids s h
    have hc : (trim c).isEmpty = false := by simpa using h c (List.mem_cons_self _ _)
    have hcs : ∀ d ∈ cs, trim d ≠ [] := fun d hd => h d (List.mem_cons_of_mem _ hd)
    cases hf : os.fork s.trace with
    | some pid =>
      have := ih (pids ++ [pid]) (s.emit [.fork (.command c) (some pid)]) hcs
      simp only [Shell.emit] at this
      simp [fork_loop, hc, hf, this, fork_answers, fork_events, forked_pids, Shell.emit]
    | none =>
      have := ih pids (s.emit [.fork (.command c) none, .error]) hcs
      simp only [Shell.emit] at this
      simp [fork_loop, hc, hf, this, fork_answers, fork_events, forked_pids, Shell.emit,
        print_error]

theorem fork_answers_length (os : OS) (commands : List Str) :
    ∀ trace, (fork_answers os commands trace).length = commands.length := by
  induction commands with
  | nil => intro trace; rfl
  | cons c cs ih => intro trace; simp [fork_answers, ih]

theorem fork_children_fork_events (commands : List Str) :
    ∀ answers : List (Option Nat), answers.length = commands.length →
      fork_children (fork_events commands answers) = commands.map Child.command := by
  induction commands with
  | nil => intro answers _; cases answers <;> rfl
  | cons c cs ih =>
    intro answers h
    rcases answers with _ | ⟨_ | pid, as⟩
    · simp at h
    · simp [fork_events, fork_children, ih as (by simpa using h)]
    · simp [fork_events, fork_children, ih as (by simpa using h)]

theorem fork_pids_fork_events (commands : List Str) :
    ∀ answers : List (Option Nat), answers.length = commands.length →
      fork_pids (fork_events commands answers) = forked_pids answers := by
  induction commands with
  | nil => intro answers h; cases answers <;> simp_all [fork_events, fork_pids, forked_pids]
  | cons c cs ih =>
    intro answers h
    rcases answers with _ | ⟨_ | pid, as⟩
    · simp at h
    · simp [fork_events, fork_pids, forked_pids, ih as (by simpa using h)]
    · simp [fork_events, fork_pids, forked_pids, ih as (by simpa using h)]

/-- The function `execute_parallel_commands` on non-blank commands adds exactly the
calls of `parallel_events` and nothing else. -/
theorem execute_parallel_commands_eq (os : OS) (commands : List Str) (s : Shell)
    (h : ∀ c ∈ commands, trim c ≠ []) :
    execute_parallel_commands os commands s = s.emit (parallel_events os commands s.trace) := by
  simp [execute_parallel_commands, fork_loop_eq os commands [] s h, wait_loop_eq, emit_emit,
    parallel_events]

/-- The handling of a line whose command group has two members or more. -/
theorem run_line_parallel (os : OS) (line : Str) (s : Shell)
    (h : 2 ≤ (command_group (trim line)).length) :
    run_line os line s =
      .ret () (s.emit (parallel_events os (command_group (trim line)) s.trace)) := by
  have hne : command_group (trim line) ≠ [] := by
    intro e; rw [e] at h; simp at h
  have hamp : trim line ≠ ['&'] := by
    intro e; rw [e] at h; revert h; decide
  have hemp : trim line ≠ [] := by
    intro e; rw [e] at h; revert h; decide
  have h2 : (command_group (trim line)).length > 1 := h
  have hp := execute_parallel_commands_eq os (command_group (trim line)) s
    (collect_commands_mem (getline_loop (trim line) []))
  simp [run_line, hamp, hemp, hne, h2, hp]

/-! ## The trace only grows -/

theorem execute_builtin_command_trace (os : OS) (tokens : List Str) (s : Shell) :
    s.trace <+: (execute_builtin_command os tokens s).state.trace := by
  cases tokens with
  | nil => simp [execute_builtin_command, Outcome.state]
  | cons tok0 args =>
    simp only [execute_builtin_command]
    split
    · split
      · simp [Outcome.state, print_error, Shell.emit]
      · split <;> simp [Outcome.state, print_error, Shell.emit]
    · split
      · simp [Outcome.state]
      · split
        · split <;> simp [Outcome.state, print_error, Shell.emit]
        · simp [Outcome.state]

theorem execute_single_command_trace (os : OS) (tokens : List Str) (output_file : Str)
    (s : Shell) : s.trace <+: (execute_single_command os tokens output_file s).trace := by
  unfold execute_single_command
  split
  · simp
  · by_cases ho : output_file = []
    · cases hf : os.fork s.trace <;> simp [ho, hf, print_error, Shell.emit]
    · cases hop : os.open_file output_file with
      | none => simp [ho, hop, print_error, Shell.emit]
      | some fd =>
        cases hf : os.fork (s.trace ++ [.open_file output_file (some fd)]) <;>
          simp [ho, hop, hf, print_error, Shell.emit]

theorem execute_command_with_redirection_trace (os : OS) (command : Str) (s : Shell) :
    s.trace <+: (execute_command_with_redirection os command s).state.trace := by
  have h1 : ∀ n, s.trace <+: (s.emit (List.replicate n Event.error)).trace :=
    fun n => List.prefix_append _ _
  unfold execute_command_with_redirection
  simp only
  split
  · exact h1 _
  · have hb := execute_builtin_command_trace os
      (handle_redirection (parse_input command) [] []).command_tokens
      (s.emit (List.replicate (handle_redirection (parse_input command) [] []).errors .error))
    split
    · rename_i heq
      rw [heq] at hb
      exact (h1 _).trans hb
    · rename_i heq
      rw [heq] at hb
      exact ((h1 _).trans hb).trans (execute_single_command_trace os _ _ _)
    · rename_i heq
      rw [heq] at hb
      exact (h1 _).trans hb
    · rename_i heq
      rw [heq] at hb
      exact (h1 _).trans hb

theorem run_line_trace (os : OS) (line : Str) (s : Shell) :
    s.trace <+: (run_line os line s).state.trace := by
  unfold run_line
  simp only
  split
  · simp [Outcome.state]
  · split
    · split
      · rw [execute_parallel_commands_eq os (command_group (trim line)) s
          (collect_commands_mem (getline_loop (trim line) []))]
        simp [Outcome.state, Shell.emit]
      · exact execute_command_with_redirection_trace os _ s
    · simp [Outcome.state]

theorem run_shell_trace (os : OS) (interactive : Bool) (lines : List Str) :
    ∀ s : Shell, ∃ later,
      (run_shell os interactive lines s).state.trace =
        s.trace ++ read_events interactive (!lines.isEmpty) ++ later := by
  induction lines with
  | nil =>
    intro s
    exact ⟨[], by cases interactive <;> simp [run_shell, Outcome.state, Shell.emit, read_events]⟩
  | cons line lines ih =>
    intro s
    have hs : (if interactive = true then s.emit [.prompt] else s).emit [.getline true] =
        s.emit (read_events interactive true) := by
      cases interactive <;> simp [emit_emit, Shell.emit, read_events]
    have hl := run_line_trace os line (s.emit (read_events interactive true))
    simp only [run_shell, hs, List.isEmpty_cons, Bool.not_false]
    split
    · rename_i u s1 heq
      rw [heq] at hl
      obtain ⟨es, hes⟩ := hl
      have hes1 : s1.trace = s.trace ++ read_events interactive true ++ es := by
        simpa [Outcome.state, Shell.emit] using hes.symm
      obtain ⟨later, hlater⟩ := ih s1
      refine ⟨es ++ read_events interactive (!lines.isEmpty) ++ later, ?_⟩
      rw [hlater, hes1]
      simp
    · obtain ⟨es, hes⟩ := hl
      exact ⟨es, by rw [← hes]; simp [Shell.emit]⟩

/-- C8: for a line whose command group has two members or more, (1) the handling of
the line returns to the shell loop having added to the parent's trace exactly the
calls of `parallel_events`: one `fork` per member, in the order of the members, each
child running its member, with the error message after a `fork` that failed and
nothing else in between; then one `waitpid` for each pid a `fork` returned, in the
same order, and no other call, whatever pids and failures the operating system
answers; (2) there are as many forks as members and the pids waited for are those
the forks returned; (3) in the trace of the whole shell loop the reading of the next
line comes right after the last `waitpid` of this line. -/
theorem C8_parallel_group_forks_then_waits (os : OS) (interactive : Bool) (line : Str)
    (lines : List Str) (s : Shell) (h : 2 ≤ (command_group (trim line)).length) :
    run_line os line s =
      .ret () (s.emit (fork_events (command_group (trim line))
          (fork_answers os (command_group (trim line)) s.trace) ++
        (forked_pids (fork_answers os (command_group (trim line)) s.trace)).map .waitpid)) ∧
    ((fork_answers os (command_group (trim line)) s.trace).length =
        (command_group (trim line)).length ∧
      fork_children (fork_events (command_group (trim line))
          (fork_answers os (command_group (trim line)) s.trace)) =
        (command_group (trim line)).map Child.command ∧
      fork_pids (fork_events (command_group (trim line))
          (fork_answers os (command_group (trim line)) s.trace)) =
        forked_pids (fork_answers os (command_group (trim line)) s.trace)) ∧
    ∃ later,
      (run_shell os interactive (line :: lines) s).state.trace =
        s.trace ++ read_events interactive true ++
          parallel_events os (command_group (trim line))
            (s.trace ++ read_events interactive true) ++
          read_events interactive (!lines.isEmpty) ++ later := by
  have hlen := fork_answers_length os (command_group (trim line)) s.trace
  refine ⟨?_, ⟨hlen, fork_children_fork_events _ _ hlen, fork_pids_fork_events _ _ hlen⟩, ?_⟩
  · rw [run_line_parallel os line s h]; rfl
  · have hs : (if interactive = true then s.emit [.prompt] else s).emit [.getline true] =
        s.emit (read_events interactive true) := by
      cases interactive <;> simp [emit_emit, Shell.emit, read_events]
    obtain ⟨later, hlater⟩ := run_shell_trace os interactive lines
      ((s.emit (read_events interactive true)).emit
        (parallel_events os (command_group (trim line))
          (s.emit (read_events interactive true)).trace))
    refine ⟨later, ?_⟩
    simp only [run_shell, hs, run_line_parallel os line _ h]
    rw [hlater]
    simp [Shell.emit]

/-- C8 at the line `ls & pwd &date`: with a `fork` that answers pid 100 plus the
number of calls made so far, three forks and then the three waits; with a `fork` that
always fails, three failed forks, each with its error message, and no wait; and in
batch mode, as the only line, the end of input is met right after the last wait. -/
theorem C8_parallel_group_forks_then_waits_witness :
    run_line os_bin_ls "ls & pwd &date".toList Shell.init =
      .ret () ⟨["/bin".toList],
        [.fork (.command "ls".toList) (some 100), .fork (.command "pwd".toList) (some 101),
         .fork (.command "date".toList) (some 102),
         .waitpid 100, .waitpid 101, .waitpid 102]⟩ ∧
    run_line os_fail "ls & pwd &date".toList Shell.init =
      .ret () ⟨["/bin".toList],
        [.fork (.command "ls".toList) none, .error, .fork (.command "pwd".toList) none,
         .error, .fork (.command "date".toList) none, .error]⟩ ∧
    ∃ later,
      (run_shell os_bin_ls false ["ls & pwd &date".toList] Shell.init).state.trace =
        [.getline true,
         .fork (.command "ls".toList) (some 101), .fork (.command "pwd".toList) (some 102),
         .fork (.command "date".toList) (some 103),
         .waitpid 101, .waitpid 102, .waitpid 103, .getline false] ++ later :=
  ⟨(C8_parallel_group_forks_then_waits os_bin_ls false "ls & pwd &date".toList []
      Shell.init (by decide)).1,
   (C8_parallel_group_forks_then_waits os_fail false "ls & pwd &date".toList []
      Shell.init (by decide)).1,
   (C8_parallel_group_forks_then_waits os_bin_ls false "ls & pwd &date".toList []
      Shell.init (by decide)).2.2⟩

end Wish
